import Mathlib

/-!
# Verification of the forbild perceptual-hash core (`src/hash.rs`)

Shallow embedding of the `Hash` engine: quadrant classification, per-quadrant
threshold (lower-median) computation, binarization, and hex encoding/decoding.
`u8` brightness values are modelled as `Nat` (no arithmetic is performed on
them, only comparison and sorting), fixed-size arrays as `List Nat`, and the
two fatal exits (`unwrap` panic in `from_hexhash`, `process::exit` in
`to_hex`) as `Option.none`.
-/

set_option maxRecDepth 100000

namespace Forbild

/-- The crate constant `SIZE` (observed value 16). -/
def SIZE : Nat := 16

/-- `HASHLEN = (SIZE*SIZE) as usize`. -/
def HASHLEN : Nat := SIZE * SIZE

/-- The `SubArea` enum of `hash.rs`. -/
inductive SubArea where
  | TopLeft
  | TopRight
  | BottomLeft
  | BottomRight
deriving DecidableEq

/-- The `subarea_medians: [[u8; 2]; 2]` field, with `mXY` standing for
`subarea_medians[X][Y]`: `m00` top-left, `m10` top-right, `m01` bottom-left,
`m11` bottom-right (the indices used in `set_subarea_medians`). -/
structure Medians where
  m00 : Nat
  m10 : Nat
  m01 : Nat
  m11 : Nat
deriving DecidableEq

/-- The `Hash` struct of `hash.rs`. -/
structure Hash where
  grayimage256 : List Nat
  binary256 : List Nat
  subarea_medians : Medians
deriving DecidableEq

/-- `Hash::new()`: the zero-filled struct. -/
def Hash.new : Hash where
  grayimage256 := List.replicate HASHLEN 0
  binary256 := List.replicate HASHLEN 0
  subarea_medians := ⟨0, 0, 0, 0⟩

/-- `Hash::get_subarea`. -/
def get_subarea (i : Nat) : SubArea :=
  if i % SIZE < SIZE / 2 then
    if i < HASHLEN / 2 then SubArea.TopLeft else SubArea.BottomLeft
  else
    if i < HASHLEN / 2 then SubArea.TopRight else SubArea.BottomRight

/-- The collection loop of `set_subarea_medians`: the grayscale values of the
pixels classified into subarea `q`, in index order (the source pushes
`*val` for each `(i, val)` of `enumerate()` whose subarea matches). -/
def collectSubarea (gray : List Nat) (q : SubArea) : List Nat :=
  ((List.range gray.length).filter (fun i => decide (get_subarea i = q))).map
    (fun i => gray.getD i 0)

/-- `Hash::set_subarea_medians`: sort each subarea's values ascending
(`sort_by` with `partial_cmp` on `u8` is an ascending sort, modelled by
`insertionSort`; only values are compared, so the choice of sorting algorithm
is irrelevant) and take the value at index 32. -/
def set_subarea_medians (gray : List Nat) : Medians where
  m00 := (List.insertionSort (· ≤ ·) (collectSubarea gray SubArea.TopLeft)).getD 32 0
  m10 := (List.insertionSort (· ≤ ·) (collectSubarea gray SubArea.TopRight)).getD 32 0
  m01 := (List.insertionSort (· ≤ ·) (collectSubarea gray SubArea.BottomLeft)).getD 32 0
  m11 := (List.insertionSort (· ≤ ·) (collectSubarea gray SubArea.BottomRight)).getD 32 0

/-- The `match` in `set_binary_hash_from_grayimage` reading the median of a
subarea from the 2×2 table. -/
def medianOf (m : Medians) : SubArea → Nat
  | SubArea.TopLeft => m.m00
  | SubArea.TopRight => m.m10
  | SubArea.BottomLeft => m.m01
  | SubArea.BottomRight => m.m11

/-- `Hash::set_binary_hash_from_grayimage`: `binary256[i] = 1` when
`grayimage256[i] >= median`, else `0`. -/
def set_binary_hash_from_grayimage (gray : List Nat) (m : Medians) : List Nat :=
  (List.range gray.length).map
    (fun i => if medianOf m (get_subarea i) ≤ gray.getD i 0 then 1 else 0)

/-- `Hash::from_grayimage`: the input image is modelled by its row-major
grayscale buffer (`set_grayimage` copies pixel `(x, y)` to index
`x + SIZE*y`). -/
def from_grayimage (img : List Nat) : Hash where
  grayimage256 := img
  binary256 := set_binary_hash_from_grayimage img (set_subarea_medians img)
  subarea_medians := set_subarea_medians img

/-- Modelled from the spec: `hex_to_binary` lives in `crate::hashmath`, which
is outside the scoped source. §4.4/§6 fix it as the inverse of the
4-bit-to-hex table `0000→'0' … 1111→'F'` (most significant bit first), total
over the sixteen hex digits and failing on any other character. -/
def hex_to_binary (c : Char) : Option (List Nat) :=
  match c with
  | '0' => some [0, 0, 0, 0]
  | '1' => some [0, 0, 0, 1]
  | '2' => some [0, 0, 1, 0]
  | '3' => some [0, 0, 1, 1]
  | '4' => some [0, 1, 0, 0]
  | '5' => some [0, 1, 0, 1]
  | '6' => some [0, 1, 1, 0]
  | '7' => some [0, 1, 1, 1]
  | '8' => some [1, 0, 0, 0]
  | '9' => some [1, 0, 0, 1]
  | 'A' => some [1, 0, 1, 0]
  | 'B' => some [1, 0, 1, 1]
  | 'C' => some [1, 1, 0, 0]
  | 'D' => some [1, 1, 0, 1]
  | 'E' => some [1, 1, 1, 0]
  | 'F' => some [1, 1, 1, 1]
  | _ => none

/-- The inner write loop of `from_hexhash`: `binaryhash[i+j] = *b` for each
`(j, b)` of the decoded 4-bit group, i.e. consecutive writes starting at
`pos`. -/
def writeBits (arr : List Nat) (pos : Nat) : List Nat → List Nat
  | [] => arr
  | b :: bs => writeBits (arr.set pos b) (pos + 1) bs

/-- The decode loop of `from_hexhash`; `none` models the `unwrap()` panic
(process abort) on an undecodable character. Note the source writes group `i`
at offsets `i..i+3` (`binaryhash[i+j]`), not `4*i..4*i+3`. -/
def from_hexhash_loop : List Char → Nat → List Nat → Option (List Nat)
  | [], _, arr => some arr
  | c :: cs, i, arr =>
    match hex_to_binary c with
    | none => none
    | some bs => from_hexhash_loop cs (i + 1) (writeBits arr i bs)

/-- `Hash::from_hexhash` (input `&[char; HASHLEN/4]` modelled as a
`List Char`; theorems that need it carry `length = 64` as a hypothesis). -/
def from_hexhash (hexhash : List Char) : Option Hash :=
  match from_hexhash_loop hexhash 0 (List.replicate HASHLEN 0) with
  | none => none
  | some arr => some { Hash.new with binary256 := arr }

/-- The 4-bit-group-to-hex-digit `match` in `to_hex`. -/
def nibble_to_hex : List Nat → Option Char
  | [0, 0, 0, 0] => some '0'
  | [0, 0, 0, 1] => some '1'
  | [0, 0, 1, 0] => some '2'
  | [0, 0, 1, 1] => some '3'
  | [0, 1, 0, 0] => some '4'
  | [0, 1, 0, 1] => some '5'
  | [0, 1, 1, 0] => some '6'
  | [0, 1, 1, 1] => some '7'
  | [1, 0, 0, 0] => some '8'
  | [1, 0, 0, 1] => some '9'
  | [1, 0, 1, 0] => some 'A'
  | [1, 0, 1, 1] => some 'B'
  | [1, 1, 0, 0] => some 'C'
  | [1, 1, 0, 1] => some 'D'
  | [1, 1, 1, 0] => some 'E'
  | [1, 1, 1, 1] => some 'F'
  | _ => none

/-- The loop of `to_hex`: hex digits for the 4-bit groups starting at group
`i` (`fuel` many, slices `binary256[4*i..4*i+4]`); `none` models the fatal
`process::exit(1)` branch. -/
def to_hex_from (bin : List Nat) : Nat → Nat → Option (List Char)
  | _, 0 => some []
  | i, fuel + 1 =>
    match nibble_to_hex ((bin.drop (4 * i)).take 4) with
    | none => none
    | some c =>
      match to_hex_from bin (i + 1) fuel with
      | none => none
      | some cs => some (c :: cs)

/-- `Hash::to_hex`. -/
def to_hex (h : Hash) : Option (List Char) :=
  to_hex_from h.binary256 0 (HASHLEN / 4)

/-- `Hash::to_string_hex`. -/
def to_string_hex (h : Hash) : Option String :=
  (to_hex h).map (fun cs => String.mk cs)

/-- The sixteen characters `to_hex` can produce. -/
def hexChars : List Char :=
  ['0', '1', '2', '3', '4', '5', '6', '7', '8', '9', 'A', 'B', 'C', 'D', 'E', 'F']

/-- The number of ones the binary hash holds inside subarea `q`. -/
def quadOnes (bin : List Nat) (q : SubArea) : Nat :=
  ((List.range HASHLEN).filter (fun i => decide (get_subarea i = q))).countP
    (fun i => decide (bin.getD i 0 = 1))

theorem hex_to_binary_length (c : Char) (bs : List Nat)
    (h : hex_to_binary c = some bs) : bs.length = 4 := by
  unfold hex_to_binary at h
  split at h <;> first | (injection h with h; subst h; rfl) | simp_all

theorem hex_to_binary_bits (c : Char) (bs : List Nat)
    (h : hex_to_binary c = some bs) : ∀ b ∈ bs, b = 0 ∨ b = 1 := by
  unfold hex_to_binary at h
  split at h <;> first | (injection h with h; subst h; decide) | simp_all

theorem writeBits_getD_of_le (bs : List Nat) (arr : List Nat) (p j : Nat)
    (hj : p + bs.length ≤ j) : (writeBits arr p bs).getD j 0 = arr.getD j 0 := by
  induction bs generalizing arr p with
  | nil => rfl
  | cons b bs ih =>
    rw [writeBits]
    rw [ih (arr.set p b) (p + 1) (by simp only [List.length_cons] at hj; omega)]
    rw [List.getD_eq_getElem?_getD, List.getD_eq_getElem?_getD,
      List.getElem?_set_ne (by simp only [List.length_cons] at hj; omega)]

theorem from_hexhash_loop_getD (cs : List Char) (i : Nat) (arr res : List Nat)
    (hl : from_hexhash_loop cs i arr = some res) (j : Nat)
    (hj : i + cs.length + 3 ≤ j) : res.getD j 0 = arr.getD j 0 := by
  induction cs generalizing i arr with
  | nil => cases hl; rfl
  | cons c cs ih =>
    rw [from_hexhash_loop] at hl
    cases hc : hex_to_binary c with
    | none => rw [hc] at hl; exact absurd hl (by simp)
    | some bs =>
      rw [hc] at hl
      have h4 := hex_to_binary_length c bs hc
      rw [ih (i + 1) (writeBits arr i bs) hl
        (by simp only [List.length_cons] at hj; omega)]
      exact writeBits_getD_of_le bs arr i j (by rw [h4]; simp only [List.length_cons] at hj; omega)

/-- C1: the bit/hex round trip FAILS on the code: the all-black image's
fingerprint encodes to 64 `'F'`s, but decoding that string yields different
bits, because the decode loop writes group `i` at offsets `i..i+3`
(`binaryhash[i+j]`) instead of `4*i..4*i+3`. -/
theorem C1_roundtrip_fails_on_allones :
    to_hex (from_grayimage (List.replicate 256 0)) = some (List.replicate 64 'F') ∧
    Option.map Hash.binary256 (from_hexhash (List.replicate 64 'F')) ≠
      some (from_grayimage (List.replicate 256 0)).binary256 := by
  refine ⟨by decide, by decide⟩

/-- C6: quadrant classification: every index below `N` gets exactly one
label, characterized by `i % SIZE < SIZE/2` (left half) and `i < N/2` (top
half), and the four quadrants partition `{0,…,N-1}` into four sets of size
`N/4 = 64`. -/
theorem C6_quadrant_partition :
    (∀ i, i < HASHLEN →
      ((get_subarea i = SubArea.TopLeft ↔ i % SIZE < SIZE / 2 ∧ i < HASHLEN / 2) ∧
       (get_subarea i = SubArea.TopRight ↔ ¬i % SIZE < SIZE / 2 ∧ i < HASHLEN / 2) ∧
       (get_subarea i = SubArea.BottomLeft ↔ i % SIZE < SIZE / 2 ∧ ¬i < HASHLEN / 2) ∧
       (get_subarea i = SubArea.BottomRight ↔ ¬i % SIZE < SIZE / 2 ∧ ¬i < HASHLEN / 2))) ∧
    ((List.range HASHLEN).filter
      (fun i => decide (get_subarea i = SubArea.TopLeft))).length = HASHLEN / 4 ∧
    ((List.range HASHLEN).filter
      (fun i => decide (get_subarea i = SubArea.TopRight))).length = HASHLEN / 4 ∧
    ((List.range HASHLEN).filter
      (fun i => decide (get_subarea i = SubArea.BottomLeft))).length = HASHLEN / 4 ∧
    ((List.range HASHLEN).filter
      (fun i => decide (get_subarea i = SubArea.BottomRight))).length = HASHLEN / 4 := by
  refine ⟨by decide, by decide, by decide, by decide, by decide⟩

/-- C8: a `Hash` rebuilt by `from_hexhash` keeps `grayimage256` and
`subarea_medians` at their `Hash::new()` zero defaults; only `binary256` is
populated. -/
theorem C8_from_hexhash_frame (cs : List Char) (h : Hash)
    (hfh : from_hexhash cs = some h) :
    h.grayimage256 = List.replicate HASHLEN 0 ∧ h.subarea_medians = ⟨0, 0, 0, 0⟩ := by
  unfold from_hexhash at hfh
  cases hl : from_hexhash_loop cs 0 (List.replicate HASHLEN 0) with
  | none => rw [hl] at hfh; exact absurd hfh (by simp)
  | some arr =>
    rw [hl] at hfh
    simp only [Option.some.injEq] at hfh
    subst hfh
    exact ⟨rfl, rfl⟩

/-- Witness for C8 at the concrete input of 64 `'0'` characters. -/
theorem C8_from_hexhash_frame_witness :
    Option.map (fun h => (h.grayimage256, h.subarea_medians))
      (from_hexhash (List.replicate 64 '0')) =
      some (List.replicate HASHLEN 0, (⟨0, 0, 0, 0⟩ : Medians)) := by
  cases hfh : from_hexhash (List.replicate 64 '0') with
  | none => exact absurd hfh (by decide)
  | some h =>
    have hfr := C8_from_hexhash_frame (List.replicate 64 '0') h hfh
    simp [hfr.1, hfr.2]

/-- C2: `from_hexhash` on a 64-character input of `'G'`s hits the decode
failure and produces no `Hash` at all (the `unwrap()` panic, modelled as
`none`) — there is no recoverable error value, contrary to the claim. -/
theorem C2_from_hexhash_invalid_digit_aborts :
    from_hexhash (List.replicate 64 'G') = none := by
  decide

/-- C9: the all-black 16×16 image yields all four medians `0`, all 256 bits
`1`, and hex encoding `"FFF…F"` (64 characters). -/
theorem C9_allblack_image :
    (from_grayimage (List.replicate 256 0)).subarea_medians = ⟨0, 0, 0, 0⟩ ∧
    (from_grayimage (List.replicate 256 0)).binary256 = List.replicate 256 1 ∧
    to_hex (from_grayimage (List.replicate 256 0)) = some (List.replicate 64 'F') := by
  refine ⟨by decide, by decide, by decide⟩

theorem getD_replicate_zero (n i : Nat) : (List.replicate n (0 : Nat)).getD i 0 = 0 := by
  rw [List.getD_eq_getElem?_getD]
  cases h : (List.replicate n (0 : Nat))[i]? with
  | none => rfl
  | some v =>
    have := List.getElem?_mem h
    simp only [List.eq_of_mem_replicate this]
    rfl

/-- C3: whenever `from_hexhash` succeeds on a 64-character input, every bit
at an index `67 ≤ i < 256` of the result is `0`: the decode loop writes group
`i` at offsets `i..i+3`, so positions `67..255` are never assigned and keep
their zero initialization. -/
theorem C3_from_hexhash_suffix_zero (cs : List Char) (h : Hash) (i : Nat)
    (hlen : cs.length = 64) (hfh : from_hexhash cs = some h)
    (h67 : 67 ≤ i) (_hi : i < HASHLEN) :
    h.binary256.getD i 0 = 0 := by
  unfold from_hexhash at hfh
  cases hl : from_hexhash_loop cs 0 (List.replicate HASHLEN 0) with
  | none => rw [hl] at hfh; exact absurd hfh (by simp)
  | some arr =>
    rw [hl] at hfh
    simp only [Option.some.injEq] at hfh
    subst hfh
    show arr.getD i 0 = 0
    rw [from_hexhash_loop_getD cs 0 _ arr hl i (by rw [hlen]; omega)]
    exact getD_replicate_zero HASHLEN i

/-- Witness for C3 at the all-zero hex string and index 100. -/
theorem C3_from_hexhash_suffix_zero_witness :
    Option.map (fun h => h.binary256.getD 100 0) (from_hexhash (List.replicate 64 '0')) =
      some 0 := by
  cases hfh : from_hexhash (List.replicate 64 '0') with
  | none => exact absurd hfh (by decide)
  | some h =>
    exact congrArg some (C3_from_hexhash_suffix_zero (List.replicate 64 '0') h 100 (by simp) hfh
      (by omega) (by decide))

theorem from_grayimage_binary_getD (img : List Nat) (i : Nat) (hi : i < img.length) :
    (from_grayimage img).binary256.getD i 0 =
      if medianOf (set_subarea_medians img) (get_subarea i) ≤ img.getD i 0
        then 1 else 0 := by
  show (set_binary_hash_from_grayimage img (set_subarea_medians img)).getD i 0 = _
  unfold set_binary_hash_from_grayimage
  have hlt : i < ((List.range img.length).map
      (fun i => if medianOf (set_subarea_medians img) (get_subarea i) ≤ img.getD i 0
        then 1 else 0)).length := by
    simpa using hi
  rw [List.getD_eq_getElem?_getD, List.getElem?_eq_getElem hlt]
  simp only [List.getElem_map, List.getElem_range, Option.getD_some]

/-- C5: binarization boundary: bit `i` of a fingerprint built from an image
is `1` exactly when the pixel's brightness is at least its quadrant's
threshold (so equality gives a `1`). -/
theorem C5_binarization_boundary (img : List Nat) (i : Nat)
    (hlen : img.length = 256) (hi : i < HASHLEN) :
    ((from_grayimage img).binary256.getD i 0 = 1 ↔
      medianOf (set_subarea_medians img) (get_subarea i) ≤ img.getD i 0) := by
  have hi' : i < img.length := by rw [hlen]; exact hi
  rw [from_grayimage_binary_getD img i hi']
  by_cases hc : medianOf (set_subarea_medians img) (get_subarea i) ≤ img.getD i 0
  · simp [hc]
  · simp [hc]

/-- Witness for C5 at the all-black image and index 0. -/
theorem C5_binarization_boundary_witness :
    ((from_grayimage (List.replicate 256 0)).binary256.getD 0 0 = 1 ↔
      medianOf (set_subarea_medians (List.replicate 256 0)) (get_subarea 0) ≤
        (List.replicate 256 (0 : Nat)).getD 0 0) :=
  C5_binarization_boundary (List.replicate 256 0) 0 (by simp) (by decide)

theorem length_collectSubarea (gray : List Nat) (q : SubArea)
    (hlen : gray.length = 256) : (collectSubarea gray q).length = 64 := by
  unfold collectSubarea
  rw [List.length_map, hlen]
  cases q <;> decide

theorem medianOf_set_subarea_medians (gray : List Nat) (q : SubArea) :
    medianOf (set_subarea_medians gray) q =
      (List.insertionSort (· ≤ ·) (collectSubarea gray q)).getD 32 0 := by
  cases q <;> rfl

/-- C4: each quadrant holds `N/4 = 64` pixels, and its threshold is the
element at ascending rank `N/8 = 32` (0-indexed) of the quadrant's values
sorted ascending (stated via `mergeSort`, independently of the sorting
algorithm the embedding uses). -/
theorem C4_threshold_is_rank32 (gray : List Nat) (q : SubArea)
    (hlen : gray.length = 256) :
    (collectSubarea gray q).length = 64 ∧
    medianOf (set_subarea_medians gray) q =
      (List.mergeSort (collectSubarea gray q) (fun a b => decide (a ≤ b))).getD 32 0 := by
  constructor
  · exact length_collectSubarea gray q hlen
  · rw [List.mergeSort_eq_insertionSort (· ≤ ·) (collectSubarea gray q)]
    exact medianOf_set_subarea_medians gray q

/-- Witness for C4 at the all-black image and the top-left quadrant. -/
theorem C4_threshold_is_rank32_witness :
    (collectSubarea (List.replicate 256 0) SubArea.TopLeft).length = 64 ∧
    medianOf (set_subarea_medians (List.replicate 256 0)) SubArea.TopLeft =
      (List.mergeSort (collectSubarea (List.replicate 256 0) SubArea.TopLeft)
        (fun a b => decide (a ≤ b))).getD 32 0 :=
  C4_threshold_is_rank32 (List.replicate 256 0) SubArea.TopLeft (by simp)

theorem nibble_to_hex_ok (l : List Nat) (hlen : l.length = 4)
    (hb : ∀ b ∈ l, b = 0 ∨ b = 1) :
    ∃ c, nibble_to_hex l = some c ∧ c ∈ hexChars := by
  rcases l with _ | ⟨a, _ | ⟨b, _ | ⟨c, _ | ⟨d, _ | ⟨e, rest⟩⟩⟩⟩⟩
  · simp at hlen
  · simp at hlen
  · simp at hlen
  · simp at hlen
  · have ha := hb a (by simp)
    have hb2 := hb b (by simp)
    have hc := hb c (by simp)
    have hd := hb d (by simp)
    rcases ha with rfl | rfl <;> rcases hb2 with rfl | rfl <;>
      rcases hc with rfl | rfl <;> rcases hd with rfl | rfl <;>
      exact ⟨_, rfl, by decide⟩
  · simp at hlen

theorem from_grayimage_binary_length (img : List Nat) :
    (from_grayimage img).binary256.length = img.length := by
  simp [from_grayimage, set_binary_hash_from_grayimage]

theorem from_grayimage_binary_bits (img : List Nat) :
    ∀ b ∈ (from_grayimage img).binary256, b = 0 ∨ b = 1 := by
  intro b hb
  simp only [from_grayimage, set_binary_hash_from_grayimage, List.mem_map] at hb
  obtain ⟨i, _, hfi⟩ := hb
  split at hfi <;> omega

theorem writeBits_length (bs arr : List Nat) (p : Nat) :
    (writeBits arr p bs).length = arr.length := by
  induction bs generalizing arr p with
  | nil => rfl
  | cons b bs ih => rw [writeBits, ih, List.length_set]

theorem writeBits_bits (bs arr : List Nat) (p : Nat)
    (harr : ∀ x ∈ arr, x = 0 ∨ x = 1) (hbs : ∀ b ∈ bs, b = 0 ∨ b = 1) :
    ∀ x ∈ writeBits arr p bs, x = 0 ∨ x = 1 := by
  induction bs generalizing arr p with
  | nil => exact harr
  | cons b bs ih =>
    rw [writeBits]
    refine ih (arr.set p b) (p + 1) ?_ (fun x hx => hbs x (List.mem_cons_of_mem _ hx))
    intro x hx
    rcases List.mem_or_eq_of_mem_set hx with h | rfl
    · exact harr x h
    · exact hbs _ (List.mem_cons_self _ _)

theorem from_hexhash_loop_invariant (cs : List Char) (i : Nat) (arr res : List Nat)
    (hl : from_hexhash_loop cs i arr = some res)
    (harr : ∀ x ∈ arr, x = 0 ∨ x = 1) :
    res.length = arr.length ∧ ∀ x ∈ res, x = 0 ∨ x = 1 := by
  induction cs generalizing i arr with
  | nil => cases hl; exact ⟨rfl, harr⟩
  | cons c cs ih =>
    rw [from_hexhash_loop] at hl
    cases hc : hex_to_binary c with
    | none => rw [hc] at hl; exact absurd hl (by simp)
    | some bs =>
      rw [hc] at hl
      have h1 := ih (i + 1) (writeBits arr i bs) hl
        (writeBits_bits bs arr i harr (hex_to_binary_bits c bs hc))
      rw [writeBits_length] at h1
      exact h1

theorem from_hexhash_binary (cs : List Char) (h : Hash)
    (hfh : from_hexhash cs = some h) :
    h.binary256.length = HASHLEN ∧ ∀ x ∈ h.binary256, x = 0 ∨ x = 1 := by
  unfold from_hexhash at hfh
  cases hl : from_hexhash_loop cs 0 (List.replicate HASHLEN 0) with
  | none => rw [hl] at hfh; exact absurd hfh (by simp)
  | some arr =>
    rw [hl] at hfh
    simp only [Option.some.injEq] at hfh
    subst hfh
    have hinv := from_hexhash_loop_invariant cs 0 _ arr hl
      (fun x hx => Or.inl (List.eq_of_mem_replicate hx))
    simpa using hinv

theorem to_hex_from_ok (bin : List Nat) (fuel : Nat)
    (hb : ∀ x ∈ bin, x = 0 ∨ x = 1) :
    ∀ i, 4 * (i + fuel) ≤ bin.length →
    (to_hex_from bin i fuel ≠ none) ∧
    ((to_hex_from bin i fuel).getD []).length = fuel ∧
    ((to_hex_from bin i fuel).getD []).all (fun c => decide (c ∈ hexChars)) = true := by
  induction fuel with
  | zero => exact fun i _ => ⟨by simp [to_hex_from], rfl, rfl⟩
  | succ fuel ih =>
    intro i hlen
    have hslice_len : ((bin.drop (4 * i)).take 4).length = 4 := by
      rw [List.length_take, List.length_drop]
      omega
    have hslice_bits : ∀ x ∈ (bin.drop (4 * i)).take 4, x = 0 ∨ x = 1 :=
      fun x hx => hb x (List.mem_of_mem_drop (List.mem_of_mem_take hx))
    obtain ⟨c, hc, hcmem⟩ := nibble_to_hex_ok _ hslice_len hslice_bits
    have hrec := ih (i + 1) (by omega)
    rw [to_hex_from, hc]
    cases hrest : to_hex_from bin (i + 1) fuel with
    | none => exact absurd hrest hrec.1
    | some cs =>
      rw [hrest] at hrec
      refine ⟨by simp, by simpa using hrec.2.1, ?_⟩
      simp only [Option.getD_some, List.all_cons, Bool.and_eq_true, decide_eq_true_eq]
      exact ⟨hcmem, hrec.2.2⟩

/-- C7: for a `Hash` produced by either public constructor, `to_hex` never
hits its fatal branch: it produces `N/4 = 64` characters, all hex digits. -/
theorem C7_to_hex_total (img : List Nat) (cs : List Char) (h : Hash)
    (hsrc : (img.length = 256 ∧ h = from_grayimage img) ∨
      (cs.length = 64 ∧ from_hexhash cs = some h)) :
    to_hex h ≠ none ∧
    ((to_hex h).getD []).length = HASHLEN / 4 ∧
    ((to_hex h).getD []).all (fun c => decide (c ∈ hexChars)) = true := by
  have hbin : h.binary256.length = 256 ∧ ∀ x ∈ h.binary256, x = 0 ∨ x = 1 := by
    rcases hsrc with ⟨hlen, rfl⟩ | ⟨_, hfh⟩
    · exact ⟨by rw [from_grayimage_binary_length, hlen], from_grayimage_binary_bits img⟩
    · exact from_hexhash_binary cs h hfh
  have hok := to_hex_from_ok h.binary256 (HASHLEN / 4) hbin.2 0 (by rw [hbin.1]; decide)
  exact hok

/-- Witness for C7 via the image constructor at the all-black image. -/
theorem C7_to_hex_total_witness :
    to_hex (from_grayimage (List.replicate 256 0)) ≠ none ∧
    ((to_hex (from_grayimage (List.replicate 256 0))).getD []).length = HASHLEN / 4 ∧
    ((to_hex (from_grayimage (List.replicate 256 0))).getD []).all
      (fun c => decide (c ∈ hexChars)) = true :=
  C7_to_hex_total (List.replicate 256 0) [] (from_grayimage (List.replicate 256 0))
    (Or.inl ⟨by simp, rfl⟩)

theorem sorted_count_ge (s : List Nat) (k : Nat) (hs : List.Sorted (· ≤ ·) s)
    (hk : k < s.length) :
    s.length - k ≤ s.countP (fun v => decide (s.getD k 0 ≤ v)) := by
  have ht : s.getD k 0 = s[k] := by
    rw [List.getD_eq_getElem?_getD, List.getElem?_eq_getElem hk]
    rfl
  have hdrop := List.drop_eq_getElem_cons (n := k) (l := s) hk
  have hsorted_drop : List.Sorted (· ≤ ·) (s.drop k) :=
    List.Pairwise.sublist (List.drop_sublist _ _) hs
  have hall : ∀ x ∈ s.drop k, s.getD k 0 ≤ x := by
    rw [hdrop] at hsorted_drop ⊢
    intro x hx
    rcases List.mem_cons.1 hx with rfl | hx2
    · exact le_of_eq ht
    · exact ht ▸ (List.pairwise_cons.1 hsorted_drop).1 x hx2
  have hcd : (s.drop k).countP (fun v => decide (s.getD k 0 ≤ v)) = (s.drop k).length :=
    List.countP_eq_length.2 (fun a ha => by simpa using hall a ha)
  calc s.length - k = (s.drop k).length := by simp
    _ = (s.drop k).countP (fun v => decide (s.getD k 0 ≤ v)) := hcd.symm
    _ ≤ (s.take k).countP (fun v => decide (s.getD k 0 ≤ v)) +
        (s.drop k).countP (fun v => decide (s.getD k 0 ≤ v)) := Nat.le_add_left _ _
    _ = s.countP (fun v => decide (s.getD k 0 ≤ v)) := by
        rw [← List.countP_append, List.take_append_drop]

theorem quadrant_ones_ge (img : List Nat) (q : SubArea) (hlen : img.length = 256) :
    32 ≤ quadOnes (from_grayimage img).binary256 q := by
  have h256 : HASHLEN = 256 := rfl
  have hslen : (List.insertionSort (· ≤ ·) (collectSubarea img q)).length = 64 := by
    rw [List.length_insertionSort]
    exact length_collectSubarea img q hlen
  have hsorted := List.sorted_insertionSort (α := Nat) (· ≤ ·) (collectSubarea img q)
  have hperm := List.perm_insertionSort (α := Nat) (· ≤ ·) (collectSubarea img q)
  have hcollect : (List.filter (fun i => decide (get_subarea i = q))
      (List.range 256)).map (fun i => img.getD i 0) = collectSubarea img q := by
    unfold collectSubarea
    rw [hlen]
  have hkey := sorted_count_ge (List.insertionSort (· ≤ ·) (collectSubarea img q)) 32
    hsorted (by omega)
  rw [hslen, hperm.countP_eq] at hkey
  unfold quadOnes
  rw [h256]
  have hcongr : (List.filter (fun i => decide (get_subarea i = q)) (List.range 256)).countP
        (fun i => decide ((from_grayimage img).binary256.getD i 0 = 1)) =
      (List.filter (fun i => decide (get_subarea i = q)) (List.range 256)).countP
        ((fun v => decide ((List.insertionSort (· ≤ ·)
          (collectSubarea img q)).getD 32 0 ≤ v)) ∘ (fun i => img.getD i 0)) := by
    refine List.countP_congr ?_
    intro i hi
    have h1 := List.mem_filter.1 hi
    have hi256 : i < 256 := List.mem_range.1 h1.1
    have hiq : get_subarea i = q := of_decide_eq_true h1.2
    simp only [Function.comp_apply, decide_eq_true_eq]
    rw [from_grayimage_binary_getD img i (by omega), hiq, medianOf_set_subarea_medians]
    by_cases hc : (List.insertionSort (· ≤ ·) (collectSubarea img q)).getD 32 0 ≤ img.getD i 0
    · simp [hc]
    · simp [hc]
  rw [hcongr, ← List.countP_map, hcollect]
  omega

theorem countP_subarea_split (l : List Nat) (p : Nat → Bool) :
    l.countP p =
      (l.filter (fun i => decide (get_subarea i = SubArea.TopLeft))).countP p +
      (l.filter (fun i => decide (get_subarea i = SubArea.TopRight))).countP p +
      (l.filter (fun i => decide (get_subarea i = SubArea.BottomLeft))).countP p +
      (l.filter (fun i => decide (get_subarea i = SubArea.BottomRight))).countP p := by
  induction l with
  | nil => rfl
  | cons a l ih =>
    cases hq : get_subarea a <;>
      simp [List.countP_cons, List.filter_cons, hq, ih] <;>
      omega

theorem from_grayimage_count_ones (img : List Nat) (hlen : img.length = 256) :
    (from_grayimage img).binary256.count 1 =
      (List.range HASHLEN).countP
        (fun i => decide ((from_grayimage img).binary256.getD i 0 = 1)) := by
  have h256 : HASHLEN = 256 := rfl
  show (set_binary_hash_from_grayimage img (set_subarea_medians img)).count 1 = _
  rw [List.count]
  unfold set_binary_hash_from_grayimage
  rw [List.countP_map, hlen, h256]
  refine List.countP_congr ?_
  intro i hi
  have hi256 : i < 256 := List.mem_range.1 hi
  simp only [Function.comp_apply]
  rw [from_grayimage_binary_getD img i (by omega)]
  simp

/-- C10: each of the four quadrants holds at least 32 one-bits (the 32 values
at sorted ranks 32..63 are at least the rank-32 threshold), so the whole bit
vector of an image-built fingerprint holds at least `N/2 = 128` ones. -/
theorem C10_at_least_half_ones (img : List Nat) (hlen : img.length = 256) :
    32 ≤ quadOnes (from_grayimage img).binary256 SubArea.TopLeft ∧
    32 ≤ quadOnes (from_grayimage img).binary256 SubArea.TopRight ∧
    32 ≤ quadOnes (from_grayimage img).binary256 SubArea.BottomLeft ∧
    32 ≤ quadOnes (from_grayimage img).binary256 SubArea.BottomRight ∧
    128 ≤ (from_grayimage img).binary256.count 1 := by
  have htl := quadrant_ones_ge img SubArea.TopLeft hlen
  have htr := quadrant_ones_ge img SubArea.TopRight hlen
  have hbl := quadrant_ones_ge img SubArea.BottomLeft hlen
  have hbr := quadrant_ones_ge img SubArea.BottomRight hlen
  refine ⟨htl, htr, hbl, hbr, ?_⟩
  rw [from_grayimage_count_ones img hlen]
  have hsplit := countP_subarea_split (List.range HASHLEN)
    (fun i => decide ((from_grayimage img).binary256.getD i 0 = 1))
  unfold quadOnes at htl htr hbl hbr
  omega

/-- Witness for C10 at the all-black image. -/
theorem C10_at_least_half_ones_witness :
    32 ≤ quadOnes (from_grayimage (List.replicate 256 0)).binary256 SubArea.TopLeft ∧
    32 ≤ quadOnes (from_grayimage (List.replicate 256 0)).binary256 SubArea.TopRight ∧
    32 ≤ quadOnes (from_grayimage (List.replicate 256 0)).binary256 SubArea.BottomLeft ∧
    32 ≤ quadOnes (from_grayimage (List.replicate 256 0)).binary256 SubArea.BottomRight ∧
    128 ≤ (from_grayimage (List.replicate 256 0)).binary256.count 1 :=
  C10_at_least_half_ones (List.replicate 256 0) (by simp)

end Forbild
